import Mathlib

/-!
A verification development for `circular_contig_extractor.py`
(rrwick/Circular-Contig-Extractor).

Strings are embedded as `List Char` (`Str`), file bytes as `List Nat`,
Mash distances as `ℚ`.  Python dictionaries are embedded as association
lists used only through `List.lookup`, which matches the source's use of
`circular_links` (membership test and item access only).  The external
`mash dist` collaborator is modelled as a function from (query record,
contig record) pairs to a rational distance, following the spec's
injectable-collaborator design note.  A Python `sys.exit` with a message
is modelled as `Except.error`; an uncaught Python exception inside
`filter_by_query` is modelled as `Option.none`.
-/

/-- Python strings, embedded as lists of characters. -/
abbrev Str : Type := List Char

/-- A GFA link record: fields 2-6 of an `L` line
(`segment_a, strand_a, segment_b, strand_b, overlap_descriptor`),
as collected by `load_gfa` (source lines 105-106). -/
structure Link where
  a : Str
  sa : Str
  b : Str
  sb : Str
  cigar : Str
deriving DecidableEq

/-- The whitespace characters stripped by Python `str.strip()`
(ASCII space, tab, newline, carriage return, vertical tab, form feed). -/
def pyIsSpace (c : Char) : Bool :=
  c == ' ' || c == '\t' || c == '\n' || c == '\r' || c == '\x0b' || c == '\x0c'

/-- Remove leading Python whitespace. -/
def stripLeft (s : Str) : Str := s.dropWhile pyIsSpace

/-- Remove trailing Python whitespace. -/
def stripRight (s : Str) : Str := (s.reverse.dropWhile pyIsSpace).reverse

/-- Python `str.strip()` with no argument: remove leading and trailing
whitespace. -/
def pyStrip (s : Str) : Str := stripRight (stripLeft s)

/-- Python `str.upper()` restricted to the ASCII sequences this program
handles (`line.upper()`, source line 255). -/
def pyUpper (s : Str) : Str := s.map Char.toUpper

/-- `name.split(maxsplit=1)[0]` (source lines 249-250 and 257-258): the
first whitespace-delimited token.  Total here; the source only evaluates
it on strings containing a non-whitespace character. -/
def firstToken (s : Str) : Str :=
  (s.dropWhile pyIsSpace).takeWhile (fun c => !pyIsSpace c)

/-- Parse a nonempty ASCII digit string as a natural number, as
`int(match.group(1))` does (source line 151). -/
def natOfDigits (ds : Str) : Nat :=
  ds.foldl (fun a c => 10 * a + (c.toNat - 48)) 0

/-- Split file content at newline characters; text-mode line iteration
followed by per-line `strip()` in the source is equivalent to this split
followed by the same `strip()`. -/
def splitOnNl : Str → List Str
  | [] => [[]]
  | c :: rest =>
    match splitOnNl rest with
    | [] => [[]]
    | l :: ls => if c = '\n' then [] :: l :: ls else (c :: l) :: ls

/-! ## Circularity detector (source lines 112-129) -/

/-- `circular_links[seg_a] = cigar`: dictionary update, embedded as an
association list read through `List.lookup` (newest binding shadows). -/
def dictSet (d : List (Str × Str)) (k v : Str) : List (Str × Str) :=
  (k, v) :: d

/-- `circular_links.pop(k, None)`: remove a key. -/
def dictPop (d : List (Str × Str)) (k : Str) : List (Str × Str) :=
  d.filter (fun p => !(p.1 == k))

/-- First pass of `find_circular_contigs` (source lines 114-117): record
the overlap descriptor of every link whose two endpoints and two strands
coincide; a later link for the same name overwrites an earlier one. -/
def selfLoopPass (links : List Link) : List (Str × Str) :=
  links.foldl
    (fun d l => if l.a == l.b && l.sa == l.sb then dictSet d l.a l.cigar else d) []

/-- Second pass of `find_circular_contigs` (source lines 118-121): every
link whose endpoints differ or whose strands differ removes both of its
endpoint names from the candidate dictionary. -/
def removePass (links : List Link) (d0 : List (Str × Str)) : List (Str × Str) :=
  links.foldl
    (fun d l =>
      if !(l.a == l.b) || !(l.sa == l.sb) then dictPop (dictPop d l.a) l.b else d)
    d0

/-- `find_circular_contigs` (source lines 112-129): contigs whose name
survives both passes, in contig order, paired with the recorded overlap
descriptor. -/
def find_circular_contigs (contigs : List (Str × Str)) (links : List Link) :
    List (Str × Str × Str) :=
  let cl := removePass links (selfLoopPass links)
  contigs.filterMap (fun c => (List.lookup c.1 cl).map (fun g => (c.1, c.2, g)))

/-! ## Overlap trimmer (source lines 132-160) -/

/-- `get_overlap_from_cigar` (source lines 148-153):
`re.match(r'^(\d+)M$', cigar)` returning `int(match.group(1))` on
success.  In Python, `$` also matches just before a single final
newline, which the second alternative reproduces. -/
def get_overlap_from_cigar (cigar : Str) : Option Nat :=
  let ds := cigar.takeWhile Char.isDigit
  let rest := cigar.dropWhile Char.isDigit
  if ds.isEmpty then none
  else if rest = ['M'] then some (natOfDigits ds)
  else if rest = ['M', '\n'] then some (natOfDigits ds)
  else none

/-- Python `seq[:-n]` for `n ≥ 1`: all but the last `n` characters,
empty when `n` is at least the length. -/
def pySliceNeg (s : Str) (n : Nat) : Str := s.take (s.length - n)

/-- `trim_seq` (source lines 156-160). -/
def trim_seq (seq : Str) (t : Option Nat) : Str :=
  match t with
  | none => seq
  | some 0 => seq
  | some (n + 1) => pySliceNeg seq (n + 1)

/-- `trim_overlaps` (source lines 132-145). -/
def trim_overlaps (contigs : List (Str × Str × Str)) : List (Str × Str) :=
  contigs.map (fun c => (c.1, trim_seq c.2.1 (get_overlap_from_cigar c.2.2)))

/-! ## Size filter (source lines 163-173) -/

/-- `filter_by_size` (source lines 163-173): apply the minimum-size
filter when a minimum is given, then the maximum-size filter when a
maximum is given. -/
def filter_by_size (contigs : List (Str × Str)) (minS maxS : Option Nat) :
    List (Str × Str) :=
  let c1 :=
    match minS with
    | none => contigs
    | some m => contigs.filter (fun s => decide (m ≤ s.2.length))
  match maxS with
  | none => c1
  | some m => c1.filter (fun s => decide (s.2.length ≤ m))

/-! ## Compression detection (source lines 269-290) -/

/-- `magic_dict['gz']` from the source: a tuple of three one-byte
strings, `(b'\x1f', b'\x8b', b'\x08')`. -/
def magic_gz : List (List Nat) := [[0x1f], [0x8b], [0x08]]

/-- `magic_dict['bz2']`: `(b'\x42', b'\x5a', b'\x68')`. -/
def magic_bz2 : List (List Nat) := [[0x42], [0x5a], [0x68]]

/-- `magic_dict['zip']`: `(b'\x50', b'\x4b', b'\x03', b'\x04')`. -/
def magic_zip : List (List Nat) := [[0x50], [0x4b], [0x03], [0x04]]

/-- `max(len(x) for x in magic_dict)` iterates the dictionary KEYS
(`'gz'`, `'bz2'`, `'zip'`), so it is `max(2, 3, 3) = 3`. -/
def max_len : Nat := 3

/-- Python `bytes.startswith` applied to a tuple: true when ANY element
of the tuple is a prefix. -/
def startswith_any (s : List Nat) (ps : List (List Nat)) : Bool :=
  ps.any (fun p => p.isPrefixOf s)

/-- The classification loop of `get_compression_type` (source lines
277-285): read the first `max_len` bytes, then test the three magic
tuples in dictionary order, the last successful test winning. -/
def detect_compression (file : List Nat) : String :=
  let file_start := file.take max_len
  let t1 := if startswith_any file_start magic_gz then "gz" else "plain"
  let t2 := if startswith_any file_start magic_bz2 then "bz2" else t1
  if startswith_any file_start magic_zip then "zip" else t2

/-- `get_compression_type` (source lines 269-290): classify, then
fatally reject bzip2 and zip (`sys.exit` modelled as `Except.error`). -/
def get_compression_type (file : List Nat) : Except String String :=
  match detect_compression file with
  | "bz2" => .error "Error: cannot use bzip2 format - use gzip instead"
  | "zip" => .error "Error: cannot use zip format - use gzip instead"
  | t => .ok t

/-! ## FASTA parsing and writing (source lines 206-209 and 236-259) -/

/-- Is this (already stripped, nonempty) line a header line
(`line[0] == '>'`, source line 247)? -/
def headerB : Str → Bool
  | [] => false
  | c :: _ => c == '>'

/-- The loop body of `iterate_fasta` (source lines 241-259), with the
pending header (`name`) and the accumulated sequence chunks
(`sequence`, newest first) as explicit state.  Note that on a header
line the accumulator is reset only in the `if name:` branch, exactly as
in the source. -/
def iterLoop : List Str → Str → List Str → List (Str × Str)
  | [], name, seqacc =>
    if name.isEmpty then [] else [(firstToken name, seqacc.reverse.flatten)]
  | line :: rest, name, seqacc =>
    let l := pyStrip line
    if l.isEmpty then iterLoop rest name seqacc
    else if headerB l then
      if name.isEmpty then iterLoop rest (l.drop 1) seqacc
      else (firstToken name, seqacc.reverse.flatten) :: iterLoop rest (l.drop 1) []
    else iterLoop rest name (pyUpper l :: seqacc)

/-- `iterate_fasta` (source lines 236-259) on the file's decompressed
content. -/
def iterate_fasta (content : Str) : List (Str × Str) :=
  iterLoop (splitOnNl content) [] []

/-- The parser loop restricted to already stripped, nonempty lines;
`iterLoop` on arbitrary lines agrees with `iterLoopC` on the cleaned
line list (proved below). -/
def iterLoopC : List Str → Str → List Str → List (Str × Str)
  | [], name, seqacc =>
    if name.isEmpty then [] else [(firstToken name, seqacc.reverse.flatten)]
  | l :: rest, name, seqacc =>
    if headerB l then
      if name.isEmpty then iterLoopC rest (l.drop 1) seqacc
      else (firstToken name, seqacc.reverse.flatten) :: iterLoopC rest (l.drop 1) []
    else iterLoopC rest name (pyUpper l :: seqacc)

/-- `write_fasta` (source lines 206-209): the written file content
`>{name}\n{seq}\n`. -/
def write_fasta (name seq : Str) : Str :=
  ('>' :: name) ++ ('\n' :: seq) ++ ['\n']

/-! ## Query filter (source lines 176-203) -/

/-- Python `<` on strings: lexicographic comparison by code point. -/
def strLtB : Str → Str → Bool
  | [], [] => false
  | [], _ :: _ => true
  | _ :: _, [] => false
  | a :: as, b :: bs =>
    if a.toNat < b.toNat then true
    else if b.toNat < a.toNat then false
    else strLtB as bs

/-- Python `<` on `(float, str)` tuples, as used by
`sorted(distances)`: lexicographic on the pair. -/
def pairLtB (x y : ℚ × Str) : Bool :=
  decide (x.1 < y.1) || (decide (x.1 = y.1) && strLtB x.2 y.2)

/-- One comparison step of selecting `sorted(distances)[0]`: keep the
smaller of the current minimum and the next element (the current one on
ties, which is irrelevant because tied pairs are equal). -/
def pairMinF (m y : ℚ × Str) : ℚ × Str := if pairLtB y m then y else m

/-- `sorted(distances)[0]` (source line 179): the least element of the
list in the tuple order, `none` for the empty list (where the source
would raise). -/
def pyListMin : List (ℚ × Str) → Option (ℚ × Str)
  | [] => none
  | x :: xs => some (xs.foldl pairMinF x)

/-- `get_all_mash_distances` (source lines 192-203) read at one contig
name: the `(distance, query_name)` pairs appended for that key, in
order (outer loop over queries, inner loop over contigs).  The result
is `[]` exactly when the `defaultdict` has no entry for the name. -/
def get_all_mash_distances (dist : Str × Str → Str × Str → ℚ)
    (contigs queries : List (Str × Str)) (name : Str) : List (ℚ × Str) :=
  queries.flatMap
    (fun q => (contigs.filter (fun c => c.1 == name)).map (fun c => (dist q c, q.1)))

/-- `closest_distances[contig_name]` (source lines 179-180): the least
`(distance, query_name)` pair; `none` models the absent dictionary key
(a `KeyError` when read). -/
def closest_distance (dist : Str × Str → Str × Str → ℚ)
    (contigs queries : List (Str × Str)) (name : Str) : Option (ℚ × Str) :=
  pyListMin (get_all_mash_distances dist contigs queries name)

/-- The retention loop of `filter_by_query` (source lines 182-186) over
a sublist of the contigs; `none` models the uncaught `KeyError` raised
when a contig name has no distance entry. -/
def fbqGo (dist : Str × Str → Str × Str → ℚ) (contigs queries : List (Str × Str))
    (t : ℚ) : List (Str × Str) → Option (List (Str × Str))
  | [] => some []
  | c :: rest =>
    match closest_distance dist contigs queries c.1 with
    | none => none
    | some dq =>
      match fbqGo dist contigs queries t rest with
      | none => none
      | some r => some (if dq.1 ≤ t then c :: r else r)

/-- `filter_by_query` (source lines 176-189), with the external `mash`
collaborator abstracted as `dist`. -/
def filter_by_query (dist : Str × Str → Str × Str → ℚ)
    (contigs queries : List (Str × Str)) (t : ℚ) : Option (List (Str × Str)) :=
  fbqGo dist contigs queries t contigs

/-! ## The main pipeline (source lines 63-79) -/

/-- The optional size-filter stage of `main` (source lines 71-74):
applied only when a bound is given; `none` models the clean
`sys.exit()` on an empty result. -/
def stageSized (c2 : List (Str × Str)) (minS maxS : Option Nat) :
    Option (List (Str × Str)) :=
  match minS, maxS with
  | none, none => some c2
  | _, _ =>
    if filter_by_size c2 minS maxS = [] then none else some (filter_by_size c2 minS maxS)

/-- `main` (source lines 63-79) after argument checking, as a function
from the parsed GFA records, the size bounds, the optional parsed query
records and the distance collaborator to the pair (exit status, contigs
written to standard output).  A clean `sys.exit()` is status 0 with no
output; an uncaught exception in the query filter is status 1. -/
def main_model (contigs : List (Str × Str)) (links : List Link)
    (minS maxS : Option Nat) (queryOpt : Option (List (Str × Str)))
    (dist : Str × Str → Str × Str → ℚ) (t : ℚ) : Nat × List (Str × Str) :=
  if find_circular_contigs contigs links = [] then (0, [])
  else
    match stageSized (trim_overlaps (find_circular_contigs contigs links)) minS maxS with
    | none => (0, [])
    | some c3 =>
      match queryOpt with
      | none => (0, c3)
      | some queries =>
        match filter_by_query dist c3 queries t with
        | none => (1, [])
        | some c4 => if c4 = [] then (0, []) else (0, c4)

/-! ## Specification-side definitions (from the claims' words) -/

/-- A link both of whose endpoints are `n` with equal strand symbols. -/
def isSelfLink (n : Str) (l : Link) : Bool :=
  l.a == n && l.b == n && l.sa == l.sb

/-- A link that disqualifies `n`: its endpoints differ or its strands
differ, and it references `n` on either side. -/
def isDisq (n : Str) (l : Link) : Bool :=
  (!(l.a == l.b) || !(l.sa == l.sb)) && (l.a == n || l.b == n)

/-- The overlap descriptor of the last matching self-link of `n`, if
any. -/
def lastSelfCigar (n : Str) : List Link → Option Str
  | [] => none
  | l :: ls =>
    match lastSelfCigar n ls with
    | some g => some g
    | none => if isSelfLink n l then some l.cigar else none

/-- The circular set as claim C1 words it: a segment qualifies iff it
has EXACTLY ONE matching self-link and no other link in any orientation
references it; qualifying contigs keep segment order and carry the
self-link's descriptor. -/
def claim_circular (contigs : List (Str × Str)) (links : List Link) :
    List (Str × Str × Str) :=
  contigs.filterMap (fun c =>
    match lastSelfCigar c.1 links with
    | none => none
    | some g =>
      if links.countP (fun l => isSelfLink c.1 l) = 1
          ∧ links.countP (fun l => (l.a == c.1 || l.b == c.1) && !isSelfLink c.1 l) = 0
      then some (c.1, c.2, g) else none)

/-- Compression classification as claim C3 words it: gzip iff the file
begins with `1F 8B 08`, fatal bzip2 iff it begins with `42 5A 68`,
fatal zip iff it begins with `50 4B 03 04`, otherwise plain text. -/
def claim_compression (file : List Nat) : Except String String :=
  if [0x1f, 0x8b, 0x08].isPrefixOf file then .ok "gz"
  else if [0x42, 0x5a, 0x68].isPrefixOf file then
    .error "Error: cannot use bzip2 format - use gzip instead"
  else if [0x50, 0x4b, 0x03, 0x04].isPrefixOf file then
    .error "Error: cannot use zip format - use gzip instead"
  else .ok "plain"

/-- The minimum of a list of rationals, `none` for the empty list. -/
def listMinQ : List ℚ → Option ℚ
  | [] => none
  | x :: xs => some (xs.foldl min x)

/-- The closest pair as claim C2 words it: the minimum distance paired
with the FIRST-SEEN query (in distance-computation order) achieving
it. -/
def firstSeenClosest (l : List (ℚ × Str)) : Option (ℚ × Str) :=
  match listMinQ (l.map Prod.fst) with
  | none => none
  | some m => l.find? (fun p => p.1 == m)

/-- A segment satisfies the provided inclusive size bounds (absent
bound = no constraint on that side). -/
def sizeOK (s : Str × Str) (minS maxS : Option Nat) : Bool :=
  (match minS with
   | none => true
   | some m => decide (m ≤ s.2.length)) &&
  (match maxS with
   | none => true
   | some m => decide (s.2.length ≤ m))

/-- Interval `[mn2, mx2]` contains interval `[mn1, mx1]`, an absent
bound meaning no constraint on that side. -/
def boundContains (mn1 mx1 mn2 mx2 : Option Nat) : Prop :=
  (match mn2 with
   | none => True
   | some m2 => match mn1 with
     | none => False
     | some m1 => m2 ≤ m1) ∧
  (match mx2 with
   | none => True
   | some m2 => match mx1 with
     | none => False
     | some m1 => m1 ≤ m2)

/-- Strip every line and drop the blank ones; the parser's behaviour
depends only on this cleaned line list. -/
def cleanL (lines : List Str) : List Str :=
  (lines.map pyStrip).filter (fun l => !l.isEmpty)

/-- The cleaned line list of a file's content. -/
def cleanLines (content : Str) : List Str :=
  cleanL (splitOnNl content)

/-- Grouping specification of the parser on cleaned lines: given the
pending header's name part and the remaining cleaned lines, emit one
record per header, its sequence being the concatenation of the
uppercased non-header lines up to the next header. -/
def specFrom (name : Str) (ls : List Str) : List (Str × Str) :=
  (firstToken name, ((ls.takeWhile (fun l => !headerB l)).map pyUpper).flatten) ::
    (match h : ls.dropWhile (fun l => !headerB l) with
     | [] => []
     | hl :: t => specFrom (hl.drop 1) t)
termination_by ls.length
decreasing_by
  have hs := List.Sublist.length_le (List.dropWhile_sublist (fun l => !headerB l) (l := ls))
  rw [h] at hs
  simp only [List.length_cons] at hs
  omega

/-- Grouping specification of `iterate_fasta` for files whose cleaned
content starts with a header line. -/
def specFasta (content : Str) : List (Str × Str) :=
  match (cleanLines content).dropWhile (fun l => !headerB l) with
  | [] => []
  | hl :: t => specFrom (hl.drop 1) t

/-- Some intermediate stage of the pipeline produced an empty result
set: no circular contigs, or a provided size bound filtered everything
out, or the query filter matched nothing. -/
def emptyStage (contigs : List (Str × Str)) (links : List Link)
    (minS maxS : Option Nat) (queryOpt : Option (List (Str × Str)))
    (dist : Str × Str → Str × Str → ℚ) (t : ℚ) : Prop :=
  find_circular_contigs contigs links = []
  ∨ (¬(minS = none ∧ maxS = none)
      ∧ filter_by_size (trim_overlaps (find_circular_contigs contigs links)) minS maxS = [])
  ∨ (∃ queries c3, queryOpt = some queries
      ∧ stageSized (trim_overlaps (find_circular_contigs contigs links)) minS maxS = some c3
      ∧ filter_by_query dist c3 queries t = some [])

/-! ## Helper lemmas -/

/-- The two sequential size filters collapse to one filter with the
conjunction of the bounds. -/
theorem filter_by_size_eq_filter (contigs : List (Str × Str)) (mn mx : Option Nat) :
    filter_by_size contigs mn mx = contigs.filter (fun c => sizeOK c mn mx) := by
  cases mn with
  | none =>
    cases mx with
    | none => simp [filter_by_size, sizeOK]
    | some mM => simp [filter_by_size, sizeOK]
  | some m =>
    cases mx with
    | none => simp [filter_by_size, sizeOK]
    | some mM =>
      show (contigs.filter (fun s => decide (m ≤ s.2.length))).filter
          (fun s => decide (s.2.length ≤ mM)) = _
      rw [List.filter_filter]
      apply List.filter_congr
      intro x _
      unfold sizeOK
      rw [Bool.and_comm]

/-! ## Claim theorems -/

/-- C3 (code bug evaluation): the source's compression sniffing rejects
as bzip2 the plain-text file starting with bytes `42 41 4E` (`BAN`),
because `bytes.startswith` is applied to a TUPLE of one-byte strings
(any single first byte of a magic sequence matches), while the claim's
classification, requiring the full magic sequences, calls the same file
plain text. -/
theorem compression_first_byte_code_bug :
    get_compression_type [0x42, 0x41, 0x4e] =
      Except.error "Error: cannot use bzip2 format - use gzip instead" ∧
    claim_compression [0x42, 0x41, 0x4e] = Except.ok "plain" :=
  ⟨rfl, rfl⟩

/-- C4: when the overlap descriptor parses as `N` with `N > 0`, trimming
yields the first `length - N` characters (so exactly the last `N` are
removed, and the result is empty when `N ≥ length`); when it parses as
`0` or does not match the pattern, the sequence is unchanged. -/
theorem trim_overlap_claim (seq cigar : Str) (n : Nat) :
    (get_overlap_from_cigar cigar = some n → 0 < n →
      trim_seq seq (get_overlap_from_cigar cigar) = seq.take (seq.length - n) ∧
      (seq.length ≤ n → trim_seq seq (get_overlap_from_cigar cigar) = [])) ∧
    (get_overlap_from_cigar cigar = some 0 →
      trim_seq seq (get_overlap_from_cigar cigar) = seq) ∧
    (get_overlap_from_cigar cigar = none →
      trim_seq seq (get_overlap_from_cigar cigar) = seq) := by
  refine ⟨?_, ?_, ?_⟩
  · intro h hn
    rw [h]
    match n, hn with
    | n + 1, _ =>
      refine ⟨rfl, ?_⟩
      intro hle
      show pySliceNeg seq (n + 1) = []
      unfold pySliceNeg
      rw [Nat.sub_eq_zero_of_le hle, List.take_zero]
  · intro h; rw [h]; rfl
  · intro h; rw [h]; rfl

/-- C4 witness: the spec's own scenario, `ACGATCAGCACT` with
descriptor `5M`. -/
theorem trim_overlap_claim_witness :
    trim_seq "ACGATCAGCACT".data (get_overlap_from_cigar "5M".data) =
      "ACGATCAGCACT".data.take ("ACGATCAGCACT".data.length - 5) :=
  ((trim_overlap_claim "ACGATCAGCACT".data "5M".data 5).1 (by decide) (by decide)).1

/-- C6: the size filter retains exactly the segments whose sequence
length satisfies all provided inclusive bounds (in input order, as a
filter), and enlarging the interval never removes a retained
segment. -/
theorem size_filter_monotone (contigs : List (Str × Str)) (mn1 mx1 mn2 mx2 : Option Nat)
    (h : boundContains mn1 mx1 mn2 mx2) :
    filter_by_size contigs mn1 mx1 = contigs.filter (fun c => sizeOK c mn1 mx1) ∧
    ∀ c ∈ filter_by_size contigs mn1 mx1, c ∈ filter_by_size contigs mn2 mx2 := by
  refine ⟨filter_by_size_eq_filter contigs mn1 mx1, ?_⟩
  intro c hc
  rw [filter_by_size_eq_filter] at hc
  rw [filter_by_size_eq_filter]
  rw [List.mem_filter] at hc ⊢
  refine ⟨hc.1, ?_⟩
  have hs := hc.2
  obtain ⟨hmin, hmax⟩ := h
  unfold sizeOK at hs ⊢
  cases mn1 <;> cases mx1 <;> cases mn2 <;> cases mx2 <;> simp_all <;> omega

/-- C6 witness: the spec's scenario interval `[8,10]` widened to
`[7,11]` on a length-9 segment. -/
theorem size_filter_monotone_witness :
    filter_by_size [("1".data, "ACGTACGTA".data)] (some 8) (some 10) =
      [("1".data, "ACGTACGTA".data)].filter (fun c => sizeOK c (some 8) (some 10)) ∧
    ∀ c ∈ filter_by_size [("1".data, "ACGTACGTA".data)] (some 8) (some 10),
      c ∈ filter_by_size [("1".data, "ACGTACGTA".data)] (some 7) (some 11) :=
  size_filter_monotone _ _ _ _ _ (by simp only [boundContains]; omega)

/-- C8: whenever an intermediate stage produces an empty result set (no
circular contigs, nothing passing a provided size bound, or nothing
passing the query filter), the pipeline terminates with exit status 0
and writes no sequence records. -/
theorem empty_stage_exit_zero (contigs : List (Str × Str)) (links : List Link)
    (minS maxS : Option Nat) (queryOpt : Option (List (Str × Str)))
    (dist : Str × Str → Str × Str → ℚ) (t : ℚ)
    (h : emptyStage contigs links minS maxS queryOpt dist t) :
    main_model contigs links minS maxS queryOpt dist t = (0, []) := by
  unfold main_model
  rcases h with h1 | ⟨h2a, h2b⟩ | ⟨queries, c3, hq, hs, hf⟩
  · rw [if_pos h1]
  · by_cases hc : find_circular_contigs contigs links = []
    · rw [if_pos hc]
    · rw [if_neg hc]
      have hnone : stageSized (trim_overlaps (find_circular_contigs contigs links)) minS maxS = none := by
        unfold stageSized
        match minS, maxS with
        | none, none => exact absurd ⟨rfl, rfl⟩ h2a
        | some m, none => rw [if_pos h2b]
        | none, some m => rw [if_pos h2b]
        | some m, some mM => rw [if_pos h2b]
      rw [hnone]
  · by_cases hc : find_circular_contigs contigs links = []
    · rw [if_pos hc]
    · rw [if_neg hc]
      simp only [hs, hq, hf]
      rfl

/-- C8 witness: a link-free empty graph has no circular contig and the
run exits cleanly with no output. -/
theorem empty_stage_exit_zero_witness :
    main_model [] [] none none none (fun _ _ => 0) 0 = (0, []) :=
  empty_stage_exit_zero [] [] none none none (fun _ _ => 0) 0 (Or.inl rfl)

/-- C9: with a nonempty contig list and a query file yielding no
records, the query filter hits a missing dictionary key (an uncaught
`KeyError`, modelled as `none`) rather than a clean fatal error. -/
theorem empty_query_keyerror (dist : Str × Str → Str × Str → ℚ)
    (contigs : List (Str × Str)) (qcontent : Str) (t : ℚ)
    (hc : contigs ≠ []) (hq : iterate_fasta qcontent = []) :
    filter_by_query dist contigs (iterate_fasta qcontent) t = none := by
  rw [hq]
  cases contigs with
  | nil => exact absurd rfl hc
  | cons c rest => rfl

/-- C9 witness: a header-free query file against one contig. -/
theorem empty_query_keyerror_witness :
    filter_by_query (fun _ _ => 0) [("s".data, "A".data)] (iterate_fasta "ACGT\n".data) 0 = none :=
  empty_query_keyerror (fun _ _ => 0) [("s".data, "A".data)] "ACGT\n".data 0
    (by decide) (by decide)

/-- `List.lookup` on a cons cell, as an `if`. -/
theorem lookup_cons_if (n : Str) (p : Str × Str) (rest : List (Str × Str)) :
    List.lookup n (p :: rest) = if n == p.1 then some p.2 else List.lookup n rest := by
  obtain ⟨pk, pv⟩ := p
  rw [List.lookup_cons]
  cases h : n == pk <;> simp [h]

/-- Looking up a name after popping a key. -/
theorem lookup_dictPop (d : List (Str × Str)) (k n : Str) :
    List.lookup n (dictPop d k) = if n = k then none else List.lookup n d := by
  induction d with
  | nil => simp [dictPop]
  | cons p rest ih =>
    unfold dictPop at ih ⊢
    rw [List.filter_cons]
    by_cases hpk : p.1 = k
    · rw [if_neg (by simp [hpk] : ¬((!(p.1 == k)) = true)), ih]
      by_cases hnk : n = k
      · rw [if_pos hnk, if_pos hnk]
      · have hb : (n == p.1) = false := by
          simp only [beq_eq_false_iff_ne]
          exact fun h => hnk (h.trans hpk)
        rw [if_neg hnk, if_neg hnk, lookup_cons_if, hb]
        simp
    · rw [if_pos (by simp [hpk] : (!(p.1 == k)) = true)]
      rw [lookup_cons_if, lookup_cons_if, ih]
      by_cases hnp : n = p.1
      · have hnk : ¬n = k := fun h => hpk (hnp.symm.trans h)
        have hb : (n == p.1) = true := by simp [hnp]
        rw [hb]
        simp [hnk]
      · have hb : (n == p.1) = false := by simp [hnp]
        rw [hb]
        simp

/-- Looking up a name in the fold of the first pass started from an
arbitrary dictionary. -/
theorem lookup_selfLoopPass_fold (links : List Link) (d : List (Str × Str)) (n : Str) :
    List.lookup n (links.foldl
        (fun d l => if l.a == l.b && l.sa == l.sb then dictSet d l.a l.cigar else d) d) =
      (lastSelfCigar n links).or (List.lookup n d) := by
  induction links generalizing d with
  | nil => rfl
  | cons l ls ih =>
    rw [List.foldl_cons, ih]
    have hstep : List.lookup n (if l.a == l.b && l.sa == l.sb then dictSet d l.a l.cigar else d) =
        ((if isSelfLink n l then some l.cigar else none).or (List.lookup n d)) := by
      by_cases hsl : (l.a == l.b && l.sa == l.sb) = true
      · rw [if_pos hsl]
        have hab : l.a = l.b ∧ l.sa = l.sb := by simpa using hsl
        unfold dictSet
        rw [lookup_cons_if]
        by_cases han : n = l.a
        · subst han
          have hself : isSelfLink l.a l = true := by
            simp [isSelfLink, hab.2, ← hab.1]
          simp [hself, Option.or]
        · have ha : (l.a == n) = false := beq_eq_false_iff_ne.mpr (fun h => han h.symm)
          have hn : (n == l.a) = false := beq_eq_false_iff_ne.mpr han
          have hself : isSelfLink n l = false := by simp [isSelfLink, ha]
          simp [hn, hself, Option.or]
      · rw [if_neg hsl]
        have hself : isSelfLink n l = false := by
          cases hA : (l.a == n) <;> cases hB : (l.b == n) <;> cases hS : (l.sa == l.sb) <;>
            simp_all [isSelfLink]
        simp [hself, Option.or]
    rw [hstep]
    have hlast : lastSelfCigar n (l :: ls) =
        (lastSelfCigar n ls).or (if isSelfLink n l then some l.cigar else none) := by
      cases h : lastSelfCigar n ls <;> simp [lastSelfCigar, h, Option.or]
    rw [hlast, Option.or_assoc]

/-- After the first pass, a name maps to the descriptor of its last
matching self-link. -/
theorem lookup_selfLoopPass (links : List Link) (n : Str) :
    List.lookup n (selfLoopPass links) = lastSelfCigar n links := by
  unfold selfLoopPass
  rw [lookup_selfLoopPass_fold]
  cases lastSelfCigar n links <;> rfl

/-- After the second pass, a name maps to its previous value when no
link disqualifies it, and to nothing otherwise. -/
theorem lookup_removePass (links : List Link) (d : List (Str × Str)) (n : Str) :
    List.lookup n (removePass links d) =
      if links.countP (isDisq n) = 0 then List.lookup n d else none := by
  induction links generalizing d with
  | nil => simp [removePass]
  | cons l ls ih =>
    unfold removePass at ih ⊢
    rw [List.foldl_cons, ih, List.countP_cons]
    by_cases hd : (!(l.a == l.b) || !(l.sa == l.sb)) = true
    · rw [if_pos hd]
      rw [lookup_dictPop, lookup_dictPop]
      by_cases hab : l.a = n ∨ l.b = n
      · have hdq : isDisq n l = true := by
          unfold isDisq
          rw [hd, Bool.true_and]
          rcases hab with h | h <;> simp [h]
        rw [if_pos hdq]
        rw [if_neg (by omega : ¬(List.countP (isDisq n) ls + 1 = 0))]
        by_cases h0 : List.countP (isDisq n) ls = 0
        · rw [if_pos h0]
          rcases hab with h | h
          · by_cases hb : n = l.b
            · rw [if_pos hb]
            · rw [if_neg hb, if_pos h.symm]
          · rw [if_pos h.symm]
        · rw [if_neg h0]
      · push_neg at hab
        have h2 : (l.a == n || l.b == n) = false := by simp [hab.1, hab.2]
        have hdq : isDisq n l = false := by simp [isDisq, h2]
        rw [hdq]
        rw [if_neg (by simp : ¬(false = true)), Nat.add_zero]
        by_cases h0 : List.countP (isDisq n) ls = 0
        · rw [if_pos h0, if_pos h0]
          rw [if_neg (fun h => hab.2 h.symm), if_neg (fun h => hab.1 h.symm)]
        · rw [if_neg h0, if_neg h0]
    · rw [if_neg hd]
      have h1 : (!(l.a == l.b) || !(l.sa == l.sb)) = false := by
        cases h : (!(l.a == l.b) || !(l.sa == l.sb)) <;> simp_all
      have hdq : isDisq n l = false := by simp [isDisq, h1]
      rw [hdq]
      rw [if_neg (by simp : ¬(false = true)), Nat.add_zero]

/-- Pointwise-equal selection functions give equal `filterMap`s. -/
theorem filterMap_congr_fun {α β : Type} (l : List α) (f g : α → Option β)
    (h : ∀ a ∈ l, f a = g a) : l.filterMap f = l.filterMap g := by
  induction l with
  | nil => rfl
  | cons a as ih =>
    rw [List.filterMap_cons, List.filterMap_cons, h a (.head _),
      ih (fun x hx => h x (.tail _ hx))]

/-- C1 (amended): a segment is classified circular iff it has AT LEAST
ONE link whose endpoints both equal its own name with equal orientation
symbols (the descriptor coming from the last such link) and no link with
differing endpoints or differing orientations references it; the result
is the qualifying contigs in segment order. -/
theorem circular_amended (contigs : List (Str × Str)) (links : List Link) :
    find_circular_contigs contigs links = contigs.filterMap (fun c =>
      if links.countP (isDisq c.1) = 0 then
        (lastSelfCigar c.1 links).map (fun g => (c.1, c.2, g))
      else none) := by
  simp only [find_circular_contigs]
  apply filterMap_congr_fun
  intro c _
  rw [lookup_removePass, lookup_selfLoopPass]
  by_cases h0 : links.countP (isDisq c.1) = 0
  · rw [if_pos h0, if_pos h0]
  · rw [if_neg h0, if_neg h0]
    rfl

/-- C1 (counterexample): with two identical matching self-links on the
same segment, the code still classifies the segment circular (the last
descriptor winning), while the claim's "exactly one link" reading
excludes it. -/
theorem circular_claim_counterexample :
    find_circular_contigs [("1".data, "ACGT".data)]
        [⟨"1".data, "+".data, "1".data, "+".data, "5M".data⟩,
         ⟨"1".data, "+".data, "1".data, "+".data, "3M".data⟩] ≠
      claim_circular [("1".data, "ACGT".data)]
        [⟨"1".data, "+".data, "1".data, "+".data, "5M".data⟩,
         ⟨"1".data, "+".data, "1".data, "+".data, "3M".data⟩] := by
  decide

/-- Python string comparison is irreflexive. -/
theorem strLtB_irrefl (a : Str) : strLtB a a = false := by
  induction a with
  | nil => rfl
  | cons c cs ih => simp [strLtB, ih]

/-- Python string comparison is asymmetric. -/
theorem strLtB_asymm {a b : Str} (h : strLtB a b = true) : strLtB b a = false := by
  induction a generalizing b with
  | nil =>
    cases b with
    | nil => simp [strLtB] at h
    | cons d ds => rfl
  | cons c cs ih =>
    cases b with
    | nil => simp [strLtB] at h
    | cons d ds =>
      simp only [strLtB] at h ⊢
      by_cases h1 : c.toNat < d.toNat
      · rw [if_neg (by omega : ¬d.toNat < c.toNat), if_pos h1]
      · by_cases h2 : d.toNat < c.toNat
        · rw [if_neg h1, if_pos h2] at h
          simp at h
        · rw [if_neg h1, if_neg h2] at h
          rw [if_neg h2, if_neg h1]
          exact ih h

/-- From `c < a`, every `b` satisfies `b < a` or `c < b` (a totality
form of transitivity for Python string comparison). -/
theorem strLtB_split (c : Str) : ∀ a b : Str, strLtB c a = true →
    strLtB b a = true ∨ strLtB c b = true := by
  induction c with
  | nil =>
    intro a b h
    cases a with
    | nil => simp [strLtB] at h
    | cons x xs =>
      cases b with
      | nil => exact Or.inl rfl
      | cons y ys => exact Or.inr rfl
  | cons z zs ih =>
    intro a b h
    cases a with
    | nil => simp [strLtB] at h
    | cons x xs =>
      cases b with
      | nil => exact Or.inl rfl
      | cons y ys =>
        simp only [strLtB] at h ⊢
        by_cases hzx : z.toNat < x.toNat
        · by_cases hyx : y.toNat < x.toNat
          · left
            rw [if_pos hyx]
          · right
            rw [if_pos (by omega : z.toNat < y.toNat)]
        · by_cases hxz : x.toNat < z.toNat
          · rw [if_neg hzx, if_pos hxz] at h
            simp at h
          · rw [if_neg hzx, if_neg hxz] at h
            by_cases hyx : y.toNat < x.toNat
            · left
              rw [if_pos hyx]
            · by_cases hxy : x.toNat < y.toNat
              · right
                rw [if_pos (by omega : z.toNat < y.toNat)]
              · rcases ih xs ys h with hh | hh
                · left
                  rw [if_neg hyx, if_neg hxy]
                  exact hh
                · right
                  rw [if_neg (by omega : ¬z.toNat < y.toNat),
                    if_neg (by omega : ¬y.toNat < z.toNat)]
                  exact hh

/-- Python tuple comparison is irreflexive. -/
theorem pairLtB_irrefl (x : ℚ × Str) : pairLtB x x = false := by
  simp [pairLtB, strLtB_irrefl]

/-- Python tuple comparison is asymmetric. -/
theorem pairLtB_asymm {x y : ℚ × Str} (h : pairLtB x y = true) : pairLtB y x = false := by
  simp only [pairLtB, Bool.or_eq_true, Bool.and_eq_true, decide_eq_true_eq] at h
  rcases h with h | ⟨he, hs⟩
  · have h1 : ¬y.1 < x.1 := lt_asymm h
    have h2 : ¬y.1 = x.1 := ne_of_gt h
    simp [pairLtB, h1, h2]
  · have h1 : ¬y.1 < x.1 := by
      rw [← he]
      exact lt_irrefl _
    have h2 : strLtB y.2 x.2 = false := strLtB_asymm hs
    simp [pairLtB, h1, h2]

/-- From `z < x`, every `y` satisfies `y < x` or `z < y` in the tuple
order. -/
theorem pairLtB_split {x z : ℚ × Str} (h : pairLtB z x = true) (y : ℚ × Str) :
    pairLtB y x = true ∨ pairLtB z y = true := by
  simp only [pairLtB, Bool.or_eq_true, Bool.and_eq_true, decide_eq_true_eq] at h ⊢
  rcases h with h | ⟨he, hs⟩
  · rcases lt_trichotomy y.1 x.1 with h1 | h1 | h1
    · exact Or.inl (Or.inl h1)
    · exact Or.inr (Or.inl (by rw [h1]; exact h))
    · exact Or.inr (Or.inl (lt_trans h h1))
  · rcases lt_trichotomy y.1 x.1 with h1 | h1 | h1
    · exact Or.inl (Or.inl h1)
    · rcases strLtB_split z.2 x.2 y.2 hs with hh | hh
      · exact Or.inl (Or.inr ⟨h1, hh⟩)
      · exact Or.inr (Or.inr ⟨he.trans h1.symm, hh⟩)
    · exact Or.inr (Or.inl (by rw [he]; exact h1))

/-- The fold computing `sorted(distances)[0]` returns an element of the
list below which no element lies. -/
theorem foldl_pairMinF_min (xs : List (ℚ × Str)) (x : ℚ × Str) :
    xs.foldl pairMinF x ∈ x :: xs ∧
      ∀ p ∈ x :: xs, pairLtB p (xs.foldl pairMinF x) = false := by
  induction xs generalizing x with
  | nil =>
    refine ⟨.head _, ?_⟩
    intro p hp
    rcases List.mem_singleton.mp hp with rfl
    exact pairLtB_irrefl _
  | cons y ys ih =>
    rw [List.foldl_cons]
    obtain ⟨hmem, hmin⟩ := ih (pairMinF x y)
    have hxy_mem : pairMinF x y = x ∨ pairMinF x y = y := by
      unfold pairMinF
      split
      · exact Or.inr rfl
      · exact Or.inl rfl
    constructor
    · rcases List.mem_cons.mp hmem with h | h
      · rcases hxy_mem with h2 | h2
        · rw [h, h2]
          exact .head _
        · rw [h, h2]
          exact .tail _ (.head _)
      · exact .tail _ (.tail _ h)
    · have hminf : pairLtB (pairMinF x y) (ys.foldl pairMinF (pairMinF x y)) = false :=
        hmin _ (.head _)
      have hx_f : pairLtB x (pairMinF x y) = false := by
        unfold pairMinF
        split
        · next hlt => exact pairLtB_asymm hlt
        · exact pairLtB_irrefl x
      have hy_f : pairLtB y (pairMinF x y) = false := by
        unfold pairMinF
        split
        · exact pairLtB_irrefl y
        · next hnlt =>
            cases hb : pairLtB y x with
            | false => rfl
            | true => exact absurd hb hnlt
      have htrans : ∀ u r : ℚ × Str, pairLtB u (pairMinF x y) = false →
          pairLtB (pairMinF x y) r = false → pairLtB u r = false := by
        intro u r h1 h2
        cases h3 : pairLtB u r with
        | false => rfl
        | true =>
          rcases pairLtB_split h3 (pairMinF x y) with hh | hh
          · rw [h2] at hh
            exact absurd hh (by simp)
          · rw [h1] at hh
            exact absurd hh (by simp)
      intro p hp
      rcases List.mem_cons.mp hp with rfl | hp2
      · exact htrans _ _ hx_f hminf
      · rcases List.mem_cons.mp hp2 with rfl | hp3
        · exact htrans _ _ hy_f hminf
        · exact hmin p (.tail _ hp3)

/-- `sorted(distances)[0]` is an element of the list below which no
element lies. -/
theorem pyListMin_spec {l : List (ℚ × Str)} {m : ℚ × Str} (h : pyListMin l = some m) :
    m ∈ l ∧ ∀ p ∈ l, pairLtB p m = false := by
  cases l with
  | nil => simp [pyListMin] at h
  | cons x xs =>
    simp only [pyListMin, Option.some.injEq] at h
    subst h
    exact foldl_pairMinF_min xs x

/-- C2 (amended): the reported closest pair is an actually computed
`(distance, query)` pair, its distance is minimal, and NO computed pair
is smaller in the Python tuple order — so on exact distance ties the
reported query is the LEXICOGRAPHICALLY SMALLEST query name among the
tied ones (tuple comparison), not the first-seen one. -/
theorem closest_query_amended (dist : Str × Str → Str × Str → ℚ)
    (contigs queries : List (Str × Str)) (n : Str) (d : ℚ) (q : Str)
    (h : closest_distance dist contigs queries n = some (d, q)) :
    (d, q) ∈ get_all_mash_distances dist contigs queries n ∧
    (∀ p ∈ get_all_mash_distances dist contigs queries n, d ≤ p.1) ∧
    (∀ p ∈ get_all_mash_distances dist contigs queries n, pairLtB p (d, q) = false) := by
  unfold closest_distance at h
  obtain ⟨hmem, hmin⟩ := pyListMin_spec h
  refine ⟨hmem, ?_, hmin⟩
  intro p hp
  have hfalse := hmin p hp
  by_contra hlt
  push_neg at hlt
  have htrue : pairLtB p (d, q) = true := by
    simp [pairLtB, hlt]
  rw [hfalse] at htrue
  exact absurd htrue (by simp)

/-- C2 (counterexample): with queries `b` then `a` at equal distance 0
to contig `s`, the code reports query `a` (lexicographic tuple
minimum), while the claim's first-seen rule reports `b`. -/
theorem closest_query_counterexample :
    closest_distance (fun _ _ => 0) [("s".data, "A".data)]
        [("b".data, "A".data), ("a".data, "A".data)] "s".data ≠
      firstSeenClosest (get_all_mash_distances (fun _ _ => 0) [("s".data, "A".data)]
        [("b".data, "A".data), ("a".data, "A".data)] "s".data) := by
  decide

/-- C2 witness: the amended theorem applied at the tied-distance
example. -/
theorem closest_query_amended_witness :
    ((0 : ℚ), "a".data) ∈ get_all_mash_distances (fun _ _ => 0) [("s".data, "A".data)]
        [("b".data, "A".data), ("a".data, "A".data)] "s".data ∧
    (∀ p ∈ get_all_mash_distances (fun _ _ => 0) [("s".data, "A".data)]
        [("b".data, "A".data), ("a".data, "A".data)] "s".data, (0 : ℚ) ≤ p.1) ∧
    (∀ p ∈ get_all_mash_distances (fun _ _ => 0) [("s".data, "A".data)]
        [("b".data, "A".data), ("a".data, "A".data)] "s".data,
      pairLtB p ((0 : ℚ), "a".data) = false) :=
  closest_query_amended (fun _ _ => 0) [("s".data, "A".data)]
    [("b".data, "A".data), ("a".data, "A".data)] "s".data 0 "a".data (by decide)

/-- With pairwise-distinct contig names, filtering the contig list for
one member's name yields exactly that member. -/
theorem filter_name_singleton {contigs : List (Str × Str)} {c : Str × Str}
    (hnd : (contigs.map Prod.fst).Nodup) (hc : c ∈ contigs) :
    contigs.filter (fun x => x.1 == c.1) = [c] := by
  induction contigs with
  | nil => cases hc
  | cons a rest ih =>
    rw [List.map_cons, List.nodup_cons] at hnd
    rcases List.mem_cons.mp hc with rfl | hc2
    · rw [List.filter_cons, if_pos (by simp)]
      have hrest : rest.filter (fun x => x.1 == c.1) = [] := by
        rw [List.filter_eq_nil_iff]
        intro x hx
        simp only [beq_iff_eq]
        intro hxe
        exact hnd.1 (hxe ▸ List.mem_map_of_mem Prod.fst hx)
      rw [hrest]
    · have hne : (a.1 == c.1) = false := by
        rw [beq_eq_false_iff_ne]
        intro he
        exact hnd.1 (he.symm ▸ List.mem_map_of_mem Prod.fst hc2)
      rw [List.filter_cons, hne]
      simp only [Bool.false_eq_true, if_false]
      exact ih hnd.2 hc2

/-- `flatMap` of singletons is `map`. -/
theorem flatMap_map_single {α β : Type} (l : List α) (f : α → β) :
    l.flatMap (fun x => [f x]) = l.map f := by
  induction l with
  | nil => rfl
  | cons a as ih =>
    rw [List.flatMap_cons, ih]
    rfl

/-- The first component of the tuple-order fold is the plain minimum of
the first components. -/
theorem foldl_pairMinF_fst (xs : List (ℚ × Str)) (x : ℚ × Str) :
    (xs.foldl pairMinF x).1 = (xs.map Prod.fst).foldl min x.1 := by
  induction xs generalizing x with
  | nil => rfl
  | cons y ys ih =>
    rw [List.foldl_cons, List.map_cons, List.foldl_cons, ih]
    have hhead : (pairMinF x y).1 = min x.1 y.1 := by
      unfold pairMinF
      rcases lt_trichotomy y.1 x.1 with h | h | h
      · have hc : pairLtB y x = true := by simp [pairLtB, h]
        rw [hc]
        simp [min_eq_right (le_of_lt h)]
      · split
        · rw [h]
          rw [min_self]
        · rw [← h]
          rw [min_self]
      · have hc : pairLtB y x = false := by
          simp [pairLtB, lt_asymm h, ne_of_gt h]
        rw [hc]
        simp [min_eq_left (le_of_lt h)]
    rw [hhead]

/-- C5: with a nonempty query list and distinct contig names, the query
filter returns (without error) exactly the contigs whose minimum
distance over all queries is at most the threshold, in input order. -/
theorem query_filter_threshold (dist : Str × Str → Str × Str → ℚ)
    (contigs queries : List (Str × Str)) (t : ℚ)
    (hq : queries ≠ []) (hnd : (contigs.map Prod.fst).Nodup) :
    filter_by_query dist contigs queries t =
      some (contigs.filter (fun c =>
        match listMinQ (queries.map (fun q => dist q c)) with
        | none => false
        | some m => decide (m ≤ t))) := by
  obtain ⟨q0, qs, rfl⟩ : ∃ q0 qs, queries = q0 :: qs := by
    cases queries with
    | nil => exact absurd rfl hq
    | cons q0 qs => exact ⟨q0, qs, rfl⟩
  have hclosest : ∀ c ∈ contigs, closest_distance dist contigs (q0 :: qs) c.1 =
      some ((qs.map (fun q => (dist q c, q.1))).foldl pairMinF (dist q0 c, q0.1)) := by
    intro c hc
    unfold closest_distance get_all_mash_distances
    rw [filter_name_singleton hnd hc]
    simp only [List.map_cons, List.map_nil]
    rw [flatMap_map_single]
    simp only [List.map_cons, pyListMin]
  suffices hgo : ∀ sub : List (Str × Str), (∀ c ∈ sub, c ∈ contigs) →
      fbqGo dist contigs (q0 :: qs) t sub =
        some (sub.filter (fun c =>
          match listMinQ ((q0 :: qs).map (fun q => dist q c)) with
          | none => false
          | some m => decide (m ≤ t))) by
    exact hgo contigs (fun c hc => hc)
  intro sub hsub
  induction sub with
  | nil => rfl
  | cons c rest ih =>
    have hc : c ∈ contigs := hsub c (.head _)
    have hrest := ih (fun x hx => hsub x (.tail _ hx))
    have hfst : ((qs.map (fun q => (dist q c, q.1))).foldl pairMinF (dist q0 c, q0.1)).1
        = (qs.map (fun q => dist q c)).foldl min (dist q0 c) := by
      rw [foldl_pairMinF_fst, List.map_map]
      rfl
    simp only [fbqGo, hclosest c hc, hrest]
    rw [List.filter_cons]
    simp only [List.map_cons, listMinQ]
    rw [← hfst]
    by_cases hle : ((qs.map (fun q => (dist q c, q.1))).foldl pairMinF (dist q0 c, q0.1)).1 ≤ t
    · rw [if_pos hle, if_pos (by simp [hle])]
    · rw [if_neg hle, if_neg (by simp [hle])]

/-- C5 witness: one contig, one identical query, threshold 0. -/
theorem query_filter_threshold_witness :
    filter_by_query (fun _ _ => 0) [("c".data, "A".data)] [("q".data, "A".data)] 0 =
      some ([("c".data, "A".data)].filter (fun c =>
        match listMinQ ([("q".data, "A".data)].map (fun q => (0 : ℚ))) with
        | none => false
        | some m => decide (m ≤ (0 : ℚ)))) :=
  query_filter_threshold (fun _ _ => 0) [("c".data, "A".data)] [("q".data, "A".data)] 0
    (by decide) (by decide)

/-- A nonempty list is not `isEmpty`. -/
theorem isEmpty_false_of_ne {l : Str} (h : l ≠ []) : l.isEmpty = false := by
  cases l with
  | nil => exact absurd rfl h
  | cons c cs => rfl

/-- `splitOnNl` never returns the empty list of lines. -/
theorem splitOnNl_ne_nil (s : Str) : splitOnNl s ≠ [] := by
  cases s with
  | nil => simp [splitOnNl]
  | cons c rest =>
    simp only [splitOnNl]
    cases h : splitOnNl rest with
    | nil => simp
    | cons l ls => by_cases hc : c = '\n' <;> simp [hc]

/-- Splitting around an explicit newline. -/
theorem splitOnNl_append (a b : Str) (ha : '\n' ∉ a) :
    splitOnNl (a ++ '\n' :: b) = a :: splitOnNl b := by
  induction a with
  | nil =>
    simp only [List.nil_append, splitOnNl]
    cases h : splitOnNl b with
    | nil => exact absurd h (splitOnNl_ne_nil b)
    | cons l ls => simp
  | cons c cs ih =>
    have hc : ¬(c = '\n') := fun h => ha (h ▸ List.mem_cons_self c cs)
    show splitOnNl (c :: (cs ++ '\n' :: b)) = (c :: cs) :: splitOnNl b
    simp only [splitOnNl]
    rw [ih (fun h => ha (List.mem_cons_of_mem c h))]
    simp [hc]

/-- `dropWhile` distributes over an append whose first part contains a
failing element. -/
theorem dropWhile_append_stop {p : Char → Bool} {a : Str} (b : Str)
    (h : ∃ x ∈ a, p x = false) :
    (a ++ b).dropWhile p = a.dropWhile p ++ b := by
  induction a with
  | nil =>
    obtain ⟨x, hx, _⟩ := h
    cases hx
  | cons c cs ih =>
    simp only [List.cons_append, List.dropWhile_cons]
    by_cases hp : p c = true
    · rcases h with ⟨x, hx, hpx⟩
      rcases List.mem_cons.mp hx with rfl | hx2
      · rw [hp] at hpx
        simp at hpx
      · simp only [hp, if_true]
        exact ih ⟨x, hx2, hpx⟩
    · simp [hp]

/-- `takeWhile` ignores an appended all-failing suffix. -/
theorem takeWhile_append_stop {p : Char → Bool} {w : Str} (x : Str)
    (hw : ∀ c ∈ w, p c = false) :
    (x ++ w).takeWhile p = x.takeWhile p := by
  induction x with
  | nil =>
    simp only [List.nil_append, List.takeWhile_nil]
    cases w with
    | nil => rfl
    | cons c cs => simp [List.takeWhile_cons, hw c (List.mem_cons_self c cs)]
  | cons d ds ih =>
    simp only [List.cons_append, List.takeWhile_cons]
    by_cases hp : p d = true
    · simp only [hp, if_true]
      rw [ih]
    · simp [hp]

/-- A string is its right-strip followed by an all-space suffix. -/
theorem stripRight_decomp (s : Str) :
    s = stripRight s ++ (s.reverse.takeWhile pyIsSpace).reverse ∧
      ∀ c ∈ (s.reverse.takeWhile pyIsSpace).reverse, pyIsSpace c = true := by
  constructor
  · conv_lhs => rw [← List.reverse_reverse s,
      ← List.takeWhile_append_dropWhile pyIsSpace s.reverse]
    rw [List.reverse_append]
    rfl
  · intro c hc
    exact List.mem_takeWhile_imp (List.mem_reverse.mp hc)

/-- Appending an all-space suffix does not change the first token. -/
theorem firstToken_append_space {a w : Str} (ha : ∃ c ∈ a, pyIsSpace c = false)
    (hw : ∀ c ∈ w, pyIsSpace c = true) : firstToken (a ++ w) = firstToken a := by
  unfold firstToken
  rw [dropWhile_append_stop w ha]
  apply takeWhile_append_stop
  intro c hc
  simp [hw c hc]

/-- Right-stripping does not change the first token of a string with a
non-space character. -/
theorem firstToken_stripRight {s : Str} (hs : ∃ c ∈ s, pyIsSpace c = false) :
    firstToken (stripRight s) = firstToken s := by
  obtain ⟨hdec, hws⟩ := stripRight_decomp s
  have ha : ∃ c ∈ stripRight s, pyIsSpace c = false := by
    obtain ⟨c, hc, hcf⟩ := hs
    rw [hdec] at hc
    rcases List.mem_append.mp hc with h | h
    · exact ⟨c, h, hcf⟩
    · rw [hws c h] at hcf
      simp at hcf
  conv_rhs => rw [hdec]
  rw [firstToken_append_space ha hws]

/-- Right-stripping a string with a non-space character is nonempty. -/
theorem stripRight_ne_nil {s : Str} (hs : ∃ c ∈ s, pyIsSpace c = false) :
    stripRight s ≠ [] := by
  obtain ⟨hdec, hws⟩ := stripRight_decomp s
  intro h
  obtain ⟨c, hc, hcf⟩ := hs
  rw [hdec, h, List.nil_append] at hc
  rw [hws c hc] at hcf
  simp at hcf

/-- Stripping a written header line. -/
theorem pyStrip_header {name : Str} (h : ∃ c ∈ name, pyIsSpace c = false) :
    pyStrip ('>' :: name) = '>' :: stripRight name := by
  have hrev : ∃ x ∈ name.reverse, pyIsSpace x = false := by
    obtain ⟨c, hc, hcf⟩ := h
    exact ⟨c, List.mem_reverse.mpr hc, hcf⟩
  unfold pyStrip stripLeft
  rw [List.dropWhile_cons, if_neg (by simp [pyIsSpace] : ¬(pyIsSpace '>' = true))]
  unfold stripRight
  rw [List.reverse_cons, dropWhile_append_stop ['>'] hrev, List.reverse_append]
  rfl

/-- A blank line is skipped by the parser loop. -/
theorem iterLoop_step_blank (line : Str) (rest : List Str) (name : Str) (acc : List Str)
    (h : pyStrip line = []) :
    iterLoop (line :: rest) name acc = iterLoop rest name acc := by
  simp only [iterLoop, h]
  rfl

/-- A header line advances the parser loop. -/
theorem iterLoop_step_header (line : Str) (rest : List Str) (name : Str) (acc : List Str)
    (hne : pyStrip line ≠ []) (hh : headerB (pyStrip line) = true) :
    iterLoop (line :: rest) name acc =
      if name.isEmpty then iterLoop rest ((pyStrip line).drop 1) acc
      else (firstToken name, acc.reverse.flatten) :: iterLoop rest ((pyStrip line).drop 1) [] := by
  simp only [iterLoop, isEmpty_false_of_ne hne, Bool.false_eq_true, if_false, hh, if_true]

/-- A sequence line is accumulated (stripped and uppercased). -/
theorem iterLoop_step_body (line : Str) (rest : List Str) (name : Str) (acc : List Str)
    (hne : pyStrip line ≠ []) (hh : headerB (pyStrip line) = false) :
    iterLoop (line :: rest) name acc = iterLoop rest name (pyUpper (pyStrip line) :: acc) := by
  simp only [iterLoop, isEmpty_false_of_ne hne, Bool.false_eq_true, if_false, hh]

/-- At the end of the lines the pending record, if any, is emitted. -/
theorem iterLoop_nil_yield (name : Str) (acc : List Str) (h : name ≠ []) :
    iterLoop [] name acc = [(firstToken name, acc.reverse.flatten)] := by
  simp only [iterLoop, isEmpty_false_of_ne h, Bool.false_eq_true, if_false]

/-- C7 (amended): writing a record and re-parsing yields exactly the
pair `(first token of name, seq)` PROVIDED the name has a non-space
character and no newline and the sequence has no newline, is already
stripped and uppercase, and does not begin with `>`; in general the
parse uppercases the stored sequence, so the raw round-trip fails. -/
theorem fasta_roundtrip_amended (name seq : Str)
    (h1 : ∃ c ∈ name, pyIsSpace c = false)
    (h2 : '\n' ∉ name) (h3 : '\n' ∉ seq)
    (h4 : pyStrip seq = seq) (h5 : pyUpper seq = seq) (h6 : headerB seq = false) :
    iterate_fasta (write_fasta name seq) = [(firstToken name, seq)] := by
  have hl1 : pyStrip ('>' :: name) = '>' :: stripRight name := pyStrip_header h1
  have hsr : stripRight name ≠ [] := stripRight_ne_nil h1
  have htok : firstToken (stripRight name) = firstToken name := firstToken_stripRight h1
  unfold iterate_fasta write_fasta
  have hsplit : splitOnNl (('>' :: name) ++ ('\n' :: seq) ++ ['\n']) =
      ('>' :: name) :: seq :: [[]] := by
    rw [List.append_assoc]
    rw [show ('\n' :: seq) ++ ['\n'] = '\n' :: (seq ++ ['\n']) from rfl]
    rw [splitOnNl_append ('>' :: name) (seq ++ ['\n']) ?hn1]
    case hn1 =>
      intro hm
      rcases List.mem_cons.mp hm with he | hm2
      · exact absurd he (by decide)
      · exact h2 hm2
    rw [show seq ++ ['\n'] = seq ++ '\n' :: ([] : Str) from rfl]
    rw [splitOnNl_append seq [] h3]
    rfl
  rw [hsplit]
  rw [iterLoop_step_header _ _ _ _ (by rw [hl1]; simp) (by rw [hl1]; rfl)]
  simp only [List.isEmpty_nil, if_true]
  rw [hl1]
  rw [show ('>' :: stripRight name).drop 1 = stripRight name from rfl]
  by_cases hseq : seq = []
  · subst hseq
    rw [iterLoop_step_blank _ _ _ _ (by rfl)]
    rw [iterLoop_step_blank _ _ _ _ (by rfl)]
    rw [iterLoop_nil_yield _ _ hsr, htok]
    rfl
  · rw [iterLoop_step_body _ _ _ _ (by rw [h4]; exact hseq) (by rw [h4]; exact h6)]
    rw [h4, h5]
    rw [iterLoop_step_blank _ _ _ _ (by rfl)]
    rw [iterLoop_nil_yield _ _ hsr, htok]
    simp

/-- C7 (counterexample): a lowercase sequence does not survive the
round trip unchanged: `acgt` is re-parsed as `ACGT`. -/
theorem fasta_roundtrip_counterexample :
    iterate_fasta (write_fasta "x".data "acgt".data) ≠ [("x".data, "acgt".data)] := by
  decide

/-- C7 witness: the amended round trip at name `x`, sequence `ACGT`. -/
theorem fasta_roundtrip_amended_witness :
    iterate_fasta (write_fasta "x".data "ACGT".data) =
      [(firstToken "x".data, "ACGT".data)] :=
  fasta_roundtrip_amended "x".data "ACGT".data (by decide) (by decide) (by decide)
    (by decide) (by decide) (by decide)

/-- The parser loop on raw lines agrees with the clean loop on the
stripped, blank-free line list. -/
theorem iterLoop_clean (lines : List Str) : ∀ (name : Str) (acc : List Str),
    iterLoop lines name acc = iterLoopC (cleanL lines) name acc := by
  induction lines with
  | nil => intro name acc; rfl
  | cons line rest ih =>
    intro name acc
    by_cases hb : pyStrip line = []
    · rw [iterLoop_step_blank _ _ _ _ hb, ih]
      rw [show cleanL (line :: rest) = cleanL rest by
        simp [cleanL, List.filter_cons, hb]]
    · have hcl : cleanL (line :: rest) = pyStrip line :: cleanL rest := by
        simp [cleanL, List.filter_cons, isEmpty_false_of_ne hb]
      rw [hcl]
      by_cases hh : headerB (pyStrip line) = true
      · rw [iterLoop_step_header _ _ _ _ hb hh]
        simp only [iterLoopC, hh, if_true]
        by_cases hn : name.isEmpty = true
        · rw [if_pos hn, if_pos hn, ih]
        · rw [if_neg hn, if_neg hn, ih]
      · have hh2 : headerB (pyStrip line) = false := by
          cases hx : headerB (pyStrip line)
          · rfl
          · exact absurd hx hh
        rw [iterLoop_step_body _ _ _ _ hb hh2, ih]
        simp only [iterLoopC, hh2, Bool.false_eq_true, if_false]

/-- The clean loop with a pending nonempty header name produces the
grouping specification, with the accumulated chunks prepended to the
current record's sequence. -/
theorem iterLoopC_spec (ls : List Str) : ∀ (name : Str) (acc : List Str), name ≠ [] →
    (∀ l ∈ ls, headerB l = true → l.drop 1 ≠ []) →
    iterLoopC ls name acc =
      (firstToken name,
        (acc.reverse ++ (ls.takeWhile (fun l => !headerB l)).map pyUpper).flatten) ::
        (match ls.dropWhile (fun l => !headerB l) with
         | [] => []
         | hl :: t => specFrom (hl.drop 1) t) := by
  induction ls with
  | nil =>
    intro name acc hname _
    simp only [iterLoopC, isEmpty_false_of_ne hname, Bool.false_eq_true, if_false,
      List.takeWhile_nil, List.dropWhile_nil, List.map_nil, List.append_nil]
  | cons l ls ih =>
    intro name acc hname hhdr
    by_cases hh : headerB l = true
    · have hd1 : l.drop 1 ≠ [] := hhdr l (.head _) hh
      simp only [iterLoopC, hh, if_true, isEmpty_false_of_ne hname, Bool.false_eq_true,
        if_false]
      rw [ih (l.drop 1) [] hd1 (fun x hx hhx => hhdr x (.tail _ hx) hhx)]
      rw [List.takeWhile_cons, List.dropWhile_cons]
      simp only [hh, Bool.not_true, Bool.false_eq_true, if_false]
      rw [specFrom]
      cases hdw : List.dropWhile (fun l => !headerB l) ls <;> simp
    · have hh2 : headerB l = false := by
        cases hx : headerB l
        · rfl
        · exact absurd hx hh
      simp only [iterLoopC, hh2, Bool.false_eq_true, if_false]
      rw [ih name (pyUpper l :: acc) hname (fun x hx hhx => hhdr x (.tail _ hx) hhx)]
      rw [List.takeWhile_cons, List.dropWhile_cons]
      simp only [hh2, Bool.false_eq_true, Bool.not_false, if_true, if_false]
      simp [List.reverse_cons, List.append_assoc]

/-- C10 (amended): for a query file whose first non-blank stripped line
is a header and whose headers all carry a nonempty name, the parser
yields exactly the grouping specification: one record per header, the
name being the first whitespace token of the header's remainder and the
sequence the concatenation of the uppercased stripped non-blank lines
up to the next header.  Without the leading-header hypothesis the claim
fails: lines before the first header are NOT discarded but prepended to
the first record (see the counterexample). -/
theorem iterate_fasta_spec_amended (content : Str)
    (h1 : ∀ l ∈ (cleanLines content).take 1, headerB l = true)
    (h2 : ∀ l ∈ cleanLines content, headerB l = true → l.drop 1 ≠ []) :
    iterate_fasta content = specFasta content := by
  unfold iterate_fasta specFasta cleanLines
  rw [iterLoop_clean]
  cases hcl : cleanL (splitOnNl content) with
  | nil => rfl
  | cons hl tl =>
    have hmem : hl ∈ cleanLines content := by
      unfold cleanLines
      rw [hcl]
      exact .head _
    have hhl : headerB hl = true := by
      apply h1
      unfold cleanLines
      rw [hcl]
      exact .head _
    have hd1 : hl.drop 1 ≠ [] := h2 hl hmem hhl
    simp only [iterLoopC, hhl, if_true, List.isEmpty_nil]
    rw [iterLoopC_spec tl (hl.drop 1) [] hd1
      (fun x hx hhx => h2 x (by unfold cleanLines; rw [hcl]; exact .tail _ hx) hhx)]
    rw [List.dropWhile_cons]
    simp only [hhl, Bool.not_true, Bool.false_eq_true, if_false]
    rw [specFrom]
    cases hdw : List.dropWhile (fun l => !headerB l) tl <;> simp

/-- C10 (counterexample): sequence lines before the first header are
not discarded — they are prepended (uppercased) to the first record, so
the file `acgt`, `>x`, `gg` parses to `ACGTGG`, not `GG`. -/
theorem iterate_fasta_counterexample :
    iterate_fasta "acgt\n>x\ngg\n".data ≠ [("x".data, "GG".data)] := by
  decide

/-- C10 witness: the amended parser specification at a two-line
record. -/
theorem iterate_fasta_spec_amended_witness :
    iterate_fasta ">a\ngt\n".data = specFasta ">a\ngt\n".data :=
  iterate_fasta_spec_amended ">a\ngt\n".data (by decide) (by decide)
